import Mathlib

/-!
Verification development for the quantum-circuit demonstration repository.

The repository builds small quantum circuits (Bell, GHZ, W states, interference
experiments) and simulates them with a statevector engine.  Every supported gate
(H, X, Z, CX, CZ, CH, RY, CRY) has a real-valued unitary matrix, so the whole
engine is embedded here over real amplitude vectors `ℕ → ℝ`: a state on `n`
qubits is supported on indices `0 .. 2^n - 1`, and bit `q` of an index is the
value of qubit `q` (qubit 0 is the least-significant bit).
-/

namespace QC

/-- Error kinds of the specification (the Python source raises `ValueError`
for all of them; the spec names them individually). -/
inductive QError
  | invalidParameter
  | invalidQubitIndex
  | invalidGate
  deriving DecidableEq

/-- Real 2x2 matrix `[[a, b], [c, d]]` acting on one qubit. -/
structure Mat2 where
  a : ℝ
  b : ℝ
  c : ℝ
  d : ℝ

/-- Columns of the matrix are orthonormal; such matrices preserve the
Euclidean norm of a 2-vector. -/
def Mat2.orthocols (m : Mat2) : Prop :=
  m.a ^ 2 + m.c ^ 2 = 1 ∧ m.b ^ 2 + m.d ^ 2 = 1 ∧ m.a * m.b + m.c * m.d = 0

/-- Hadamard matrix `(1/√2)·[[1,1],[1,-1]]`. -/
noncomputable def hMat : Mat2 :=
  ⟨(Real.sqrt 2)⁻¹, (Real.sqrt 2)⁻¹, (Real.sqrt 2)⁻¹, -(Real.sqrt 2)⁻¹⟩

/-- Pauli X matrix `[[0,1],[1,0]]`. -/
def xMat : Mat2 := ⟨0, 1, 1, 0⟩

/-- Pauli Z matrix `[[1,0],[0,-1]]`. -/
def zMat : Mat2 := ⟨1, 0, 0, -1⟩

/-- Y-rotation matrix `[[cos(θ/2), -sin(θ/2)], [sin(θ/2), cos(θ/2)]]`. -/
noncomputable def ryMat (θ : ℝ) : Mat2 :=
  ⟨Real.cos (θ / 2), -Real.sin (θ / 2), Real.sin (θ / 2), Real.cos (θ / 2)⟩

/-- Apply a one-qubit matrix to qubit `q`: amplitudes are updated in pairs
`(i, i ^^^ 2^q)` that differ exactly in bit `q` (source: the statevector
simulation underlying `Statevector.from_instruction`). -/
def apply1 (m : Mat2) (q : ℕ) (v : ℕ → ℝ) : ℕ → ℝ := fun i =>
  if i.testBit q then m.c * v (i ^^^ 2 ^ q) + m.d * v i
  else m.a * v i + m.b * v (i ^^^ 2 ^ q)

/-- Apply a one-qubit matrix to qubit `t` only on indices whose control bit
`c` is set; all other amplitudes are untouched. -/
def applyCtrl (m : Mat2) (c t : ℕ) (v : ℕ → ℝ) : ℕ → ℝ := fun i =>
  if i.testBit c then apply1 m t v i else v i

/-- Gate operations supported by the repository
(`qc.h`, `qc.x`, `qc.z`, `qc.cx`, `qc.cz`, `qc.ch`, `qc.ry`, `qc.cry`). -/
inductive Gate
  | h (q : ℕ)
  | x (q : ℕ)
  | z (q : ℕ)
  | cx (c t : ℕ)
  | cz (a b : ℕ)
  | ch (c t : ℕ)
  | ry (θ : ℝ) (q : ℕ)
  | cry (θ : ℝ) (c t : ℕ)

/-- Semantics of one gate on a statevector. -/
noncomputable def applyGate : Gate → (ℕ → ℝ) → (ℕ → ℝ)
  | .h q => apply1 hMat q
  | .x q => apply1 xMat q
  | .z q => apply1 zMat q
  | .cx c t => applyCtrl xMat c t
  | .cz a b => applyCtrl zMat a b
  | .ch c t => applyCtrl hMat c t
  | .ry θ q => apply1 (ryMat θ) q
  | .cry θ c t => applyCtrl (ryMat θ) c t

/-- Initial all-zero basis state: amplitude 1 at index 0, 0 elsewhere. -/
def e0 : ℕ → ℝ := fun i => if i = 0 then 1 else 0

/-- Replay a gate list against the all-zero initial state. -/
noncomputable def run (gs : List Gate) : ℕ → ℝ :=
  gs.foldl (fun v g => applyGate g v) e0

/-- Qubit indices of a gate are in range and the two qubits of a two-qubit
gate are distinct (the circuit builder validates this at construction). -/
def valid (n : ℕ) : Gate → Prop
  | .h q => q < n
  | .x q => q < n
  | .z q => q < n
  | .cx c t => c < n ∧ t < n ∧ c ≠ t
  | .cz a b => a < n ∧ b < n ∧ a ≠ b
  | .ch c t => c < n ∧ t < n ∧ c ≠ t
  | .ry _ q => q < n
  | .cry _ c t => c < n ∧ t < n ∧ c ≠ t

instance (n : ℕ) (g : Gate) : Decidable (valid n g) := by
  cases g <;> · simp only [valid]; infer_instance

/-- Sum of squared amplitude magnitudes over the `2^n` basis states. -/
noncomputable def normSq (n : ℕ) (v : ℕ → ℝ) : ℝ :=
  ∑ i in Finset.range (2 ^ n), v i ^ 2

/-- Circuit: gate list plus qubit and classical bit counts
(`QuantumCircuit(n, m)`). -/
structure Circuit where
  num_qubits : ℕ
  num_clbits : ℕ
  gates : List Gate

/-- Bell-state factory `create_bell_state(variant)` from `quantum_utils.py`:
four named variants, anything else raises (`ValueError` in the source,
`InvalidParameterError` in the spec). -/
def create_bell_state (variant : String) : Except QError Circuit :=
  if variant = "phi_plus" then
    Except.ok ⟨2, 2, [Gate.h 0, Gate.cx 0 1]⟩
  else if variant = "phi_minus" then
    Except.ok ⟨2, 2, [Gate.h 0, Gate.z 0, Gate.cx 0 1]⟩
  else if variant = "psi_plus" then
    Except.ok ⟨2, 2, [Gate.h 0, Gate.cx 0 1, Gate.x 1]⟩
  else if variant = "psi_minus" then
    Except.ok ⟨2, 2, [Gate.h 0, Gate.z 0, Gate.cx 0 1, Gate.x 1]⟩
  else
    Except.error QError.invalidParameter

/-- Explicit five-gate sequence of `create_w_state` for `n_qubits == 3`. -/
def w3Gates : List Gate :=
  [Gate.x 0, Gate.ch 0 1, Gate.ch 0 2, Gate.cx 1 0, Gate.cx 2 0]

/-- General branch of `create_w_state`: `ry(2*arccos(sqrt(1/n)), 0)` followed
by `cry(2*arccos(sqrt(1/(n-i))), i-1, i)` for `i = 1 .. n-1`
(here `j = i - 1` runs over `List.range (n-1)`). -/
noncomputable def wGeneralGates (n : ℕ) : List Gate :=
  Gate.ry (2 * Real.arccos (Real.sqrt (1 / (n : ℝ)))) 0 ::
    (List.range (n - 1)).map (fun (j : ℕ) =>
      Gate.cry (2 * Real.arccos (Real.sqrt (1 / ((n : ℝ) - ((j : ℝ) + 1))))) j (j + 1))

/-- W-state factory `create_w_state(n_qubits)` from `quantum_utils.py`. -/
noncomputable def create_w_state (n : ℕ) : Except QError Circuit :=
  if n < 2 then Except.error QError.invalidParameter
  else if n = 3 then Except.ok ⟨3, 0, w3Gates⟩
  else Except.ok ⟨n, 0, wGeneralGates n⟩

/-- GHZ(3) gate sequence from `ghz_experiments`: H(0), CX(0,1), CX(0,2). -/
def ghzGates : List Gate := [Gate.h 0, Gate.cx 0 1, Gate.cx 0 2]

/-- Modelled from the spec: the repository delegates sampling to the external
`StatevectorSampler` primitive, whose implementation is not in the source
tree.  Spec section 4.4 requires an explicit seeded random stream; this is a
linear congruential generator producing values in `[0, 2^31)`. -/
def lcg (s : ℕ) : ℕ := (1103515245 * s + 12345) % 2147483648

/-- Modelled from the spec: a raw stream value scaled into `[0, 1)`. -/
noncomputable def unif (s : ℕ) : ℝ := (s : ℝ) / 2147483648

/-- Modelled from the spec: cumulative-distribution inverse transform — the
least index whose cumulative probability exceeds the uniform draw. -/
noncomputable def drawIndex : List ℝ → ℝ → ℕ
  | [], _ => 0
  | p :: ps, u => if u < p then 0 else drawIndex ps (u - p) + 1

/-- Modelled from the spec: `shots` independent categorical draws from the
seeded stream. -/
noncomputable def draws (p : List ℝ) : ℕ → ℕ → List ℕ
  | _, 0 => []
  | seed, Nat.succ k => drawIndex p (unif (lcg seed)) :: draws p (lcg seed) k

/-- Render index `i` as an `n`-bit bitstring, qubit 0 in the rightmost
(least-significant) position, as Python `f"{i:0{n}b}"` does. -/
def toBitstring (n i : ℕ) : String :=
  ⟨(List.range n).reverse.map (fun b => if Nat.testBit i b then '1' else '0')⟩

/-- Aggregate drawn indices into a Counts map keyed by bitstring. -/
def countsOf (m : ℕ) (idxs : List ℕ) : String → ℕ := fun s =>
  (idxs.map (toBitstring m)).count s

/-- Modelled from the spec: `sample(probabilities, shots, seed) -> Counts`,
failing with `InvalidParameterError` on `shots <= 0` (spec section 4.4); `m`
is the classical-bit count used for bitstring rendering. -/
noncomputable def sample (m : ℕ) (p : List ℝ) (shots : ℤ) (seed : ℕ) :
    Except QError (String → ℕ) :=
  if shots ≤ 0 then Except.error QError.invalidParameter
  else Except.ok (countsOf m (draws p seed shots.toNat))

/-- Control flow of `run_and_print` in `quantum_experiments.py`: sampling
happens only under the guard `if shots > 0`; otherwise the function simply
continues without sampling and returns normally. -/
noncomputable def run_and_print (m : ℕ) (p : List ℝ) (shots : ℤ) (seed : ℕ) :
    Except QError (Option (String → ℕ)) :=
  if 0 < shots then Except.map some (sample m p shots seed) else Except.ok none

/-- Born-rule probability list `p_i = |amplitude_i|^2` over the `2^n` basis
states. -/
noncomputable def probabilities (n : ℕ) (v : ℕ → ℝ) : List ℝ :=
  (List.range (2 ^ n)).map (fun i => v i ^ 2)

/-- Phase of a real amplitude as `np.angle` computes it: `π` for a negative
real, `0` otherwise (all supported gates have real matrices, so every
amplitude the engine produces is real). -/
noncomputable def np_angle (x : ℝ) : ℝ := if x < 0 then Real.pi else 0

/-- Output of `print_statevector(sv, threshold)` from `quantum_utils.py`: one
entry `(basis bitstring, magnitude, phase)` per enumerated index whose
amplitude magnitude strictly exceeds the threshold (default `1e-10`), with
`n_qubits = int(log2(len(sv)))` bits in the rendering. -/
noncomputable def print_statevector (sv : List ℝ) (threshold : ℝ := 1e-10) :
    List (String × ℝ × ℝ) :=
  (List.range sv.length).filterMap (fun i =>
    if threshold < |sv.getD i 0| then
      some (toBitstring sv.length.log2 i, |sv.getD i 0|, np_angle (sv.getD i 0))
    else none)

/-- Inner product of two real statevectors over the `2^n` basis states
(`np.dot(np.conj(sv1.data), sv2.data)` with real data). -/
noncomputable def inner_prod (n : ℕ) (v w : ℕ → ℝ) : ℝ :=
  ∑ i in Finset.range (2 ^ n), v i * w i

/-- Fidelity `|⟨ψ1|ψ2⟩|` computed by `compare_circuits`. -/
noncomputable def fidelity (n : ℕ) (v w : ℕ → ℝ) : ℝ := |inner_prod n v w|

/-- Closeness in the sense of `np.isclose(a, b)` with the numpy defaults
`rtol = 1e-5`, `atol = 1e-8`. -/
def np_isclose (a b : ℝ) : Prop := |a - b| ≤ 1e-8 + 1e-5 * |b|

/-- Return value of `compare_circuits(qc1, qc2)` from `quantum_utils.py`:
simulate both circuits and test `np.isclose(fidelity, 1.0)`; gate lists are
never inspected, only the two statevectors. -/
noncomputable def compare_circuits (qc1 qc2 : Circuit) : Prop :=
  np_isclose (fidelity qc1.num_qubits (run qc1.gates) (run qc2.gates)) 1

lemma sum_range_pairs (n q : ℕ) (hq : q < n) (f : ℕ → ℝ) :
    ∑ i in Finset.range (2 ^ n), f i =
      ∑ i in (Finset.range (2 ^ n)).filter (fun i => Nat.testBit i q = false),
        (f i + f (i ^^^ 2 ^ q)) := by
  rw [← Finset.sum_filter_add_sum_filter_not (Finset.range (2 ^ n))
    (fun i => Nat.testBit i q = false) f, Finset.sum_add_distrib]
  congr 1
  refine Finset.sum_nbij' (fun i => i ^^^ 2 ^ q) (fun i => i ^^^ 2 ^ q) ?_ ?_ ?_ ?_ ?_
  · intro i hi
    simp only [Finset.mem_filter, Finset.mem_range, Bool.not_eq_false] at hi
    simp only [Finset.mem_filter, Finset.mem_range]
    constructor
    · exact Nat.xor_lt_two_pow hi.1 (Nat.pow_lt_pow_right one_lt_two hq)
    · simp [Nat.testBit_xor, hi.2, Nat.testBit_two_pow_self]
  · intro i hi
    simp only [Finset.mem_filter, Finset.mem_range] at hi
    simp only [Finset.mem_filter, Finset.mem_range, Bool.not_eq_false]
    constructor
    · exact Nat.xor_lt_two_pow hi.1 (Nat.pow_lt_pow_right one_lt_two hq)
    · simp [Nat.testBit_xor, hi.2, Nat.testBit_two_pow_self]
  · intro i _
    exact Nat.xor_cancel_right _ _
  · intro i _
    exact Nat.xor_cancel_right _ _
  · intro i _
    rw [Nat.xor_cancel_right]

lemma normSq_apply1 (m : Mat2) (hm : m.orthocols) {q n : ℕ} (hq : q < n)
    (v : ℕ → ℝ) : normSq n (apply1 m q v) = normSq n v := by
  unfold normSq
  rw [sum_range_pairs n q hq, sum_range_pairs n q hq (fun i => v i ^ 2)]
  refine Finset.sum_congr rfl ?_
  intro i hi
  simp only [Finset.mem_filter, Finset.mem_range] at hi
  have hbp : Nat.testBit (i ^^^ 2 ^ q) q = true := by
    simp [Nat.testBit_xor, hi.2, Nat.testBit_two_pow_self]
  have h1 : apply1 m q v i = m.a * v i + m.b * v (i ^^^ 2 ^ q) := by
    simp [apply1, hi.2]
  have h2 : apply1 m q v (i ^^^ 2 ^ q) = m.c * v i + m.d * v (i ^^^ 2 ^ q) := by
    simp [apply1, hbp, Nat.xor_cancel_right]
  rw [h1, h2]
  obtain ⟨hc1, hc2, hc3⟩ := hm
  linear_combination (v i) ^ 2 * hc1 + (v (i ^^^ 2 ^ q)) ^ 2 * hc2 +
    2 * v i * v (i ^^^ 2 ^ q) * hc3

lemma normSq_applyCtrl (m : Mat2) (hm : m.orthocols) {c t n : ℕ} (_hc : c < n)
    (ht : t < n) (hne : c ≠ t) (v : ℕ → ℝ) :
    normSq n (applyCtrl m c t v) = normSq n v := by
  unfold normSq
  rw [sum_range_pairs n t ht, sum_range_pairs n t ht (fun i => v i ^ 2)]
  refine Finset.sum_congr rfl ?_
  intro i hi
  simp only [Finset.mem_filter, Finset.mem_range] at hi
  have hbp : Nat.testBit (i ^^^ 2 ^ t) t = true := by
    simp [Nat.testBit_xor, hi.2, Nat.testBit_two_pow_self]
  have hcbit : Nat.testBit (i ^^^ 2 ^ t) c = Nat.testBit i c := by
    simp [Nat.testBit_xor, Nat.testBit_two_pow_of_ne (Ne.symm hne)]
  by_cases hctrl : Nat.testBit i c
  · have h1 : applyCtrl m c t v i = m.a * v i + m.b * v (i ^^^ 2 ^ t) := by
      simp [applyCtrl, apply1, hctrl, hi.2]
    have h2 : applyCtrl m c t v (i ^^^ 2 ^ t) =
        m.c * v i + m.d * v (i ^^^ 2 ^ t) := by
      simp [applyCtrl, apply1, hcbit, hctrl, hbp, Nat.xor_cancel_right]
    rw [h1, h2]
    obtain ⟨hc1, hc2, hc3⟩ := hm
    linear_combination (v i) ^ 2 * hc1 + (v (i ^^^ 2 ^ t)) ^ 2 * hc2 +
      2 * v i * v (i ^^^ 2 ^ t) * hc3
  · have h1 : applyCtrl m c t v i = v i := by simp [applyCtrl, hctrl]
    have h2 : applyCtrl m c t v (i ^^^ 2 ^ t) = v (i ^^^ 2 ^ t) := by
      simp [applyCtrl, hcbit, hctrl]
    rw [h1, h2]

lemma hMat_orthocols : hMat.orthocols := by
  have hs : (Real.sqrt 2)⁻¹ ^ 2 = 1 / 2 := by
    rw [inv_pow, Real.sq_sqrt (by norm_num : (0:ℝ) ≤ 2)]
    norm_num
  refine ⟨?_, ?_, ?_⟩ <;> simp only [hMat] <;> nlinarith [hs]

lemma xMat_orthocols : xMat.orthocols := by
  refine ⟨?_, ?_, ?_⟩ <;> simp [xMat]

lemma zMat_orthocols : zMat.orthocols := by
  refine ⟨?_, ?_, ?_⟩ <;> simp [zMat]

lemma ryMat_orthocols (θ : ℝ) : (ryMat θ).orthocols := by
  refine ⟨?_, ?_, ?_⟩ <;> simp only [ryMat]
  · exact Real.cos_sq_add_sin_sq (θ / 2)
  · nlinarith [Real.cos_sq_add_sin_sq (θ / 2)]
  · ring

lemma normSq_applyGate {n : ℕ} {g : Gate} (hg : valid n g) (v : ℕ → ℝ) :
    normSq n (applyGate g v) = normSq n v := by
  cases g with
  | h q => exact normSq_apply1 hMat hMat_orthocols hg v
  | x q => exact normSq_apply1 xMat xMat_orthocols hg v
  | z q => exact normSq_apply1 zMat zMat_orthocols hg v
  | cx c t => exact normSq_applyCtrl xMat xMat_orthocols hg.1 hg.2.1 hg.2.2 v
  | cz a b => exact normSq_applyCtrl zMat zMat_orthocols hg.1 hg.2.1 hg.2.2 v
  | ch c t => exact normSq_applyCtrl hMat hMat_orthocols hg.1 hg.2.1 hg.2.2 v
  | ry θ q => exact normSq_apply1 (ryMat θ) (ryMat_orthocols θ) hg v
  | cry θ c t =>
      exact normSq_applyCtrl (ryMat θ) (ryMat_orthocols θ) hg.1 hg.2.1 hg.2.2 v

lemma normSq_e0 (n : ℕ) : normSq n e0 = 1 := by
  unfold normSq
  have hmem : (0 : ℕ) ∈ Finset.range (2 ^ n) := Finset.mem_range.mpr (by positivity)
  rw [Finset.sum_eq_single_of_mem 0 hmem]
  · simp [e0]
  · intro b _ hb
    simp [e0, hb]

lemma normSq_foldl {n : ℕ} (gs : List Gate) (v : ℕ → ℝ)
    (hv : ∀ g ∈ gs, valid n g) (hn : normSq n v = 1) :
    normSq n (gs.foldl (fun w g => applyGate g w) v) = 1 := by
  induction gs generalizing v with
  | nil => simpa using hn
  | cons g gs ih =>
      simp only [List.foldl_cons]
      refine ih (applyGate g v) (fun g hg => hv g (List.mem_cons_of_mem _ hg)) ?_
      rw [normSq_applyGate (hv g (List.mem_cons_self _ _)) v, hn]

lemma normSq_run {n : ℕ} (gs : List Gate) (hv : ∀ g ∈ gs, valid n g) :
    normSq n (run gs) = 1 :=
  normSq_foldl gs e0 hv (normSq_e0 n)

lemma sqrt_two_mul_self : Real.sqrt 2 * Real.sqrt 2 = 2 :=
  Real.mul_self_sqrt (by norm_num)

lemma one_le_sqrt_two : (1 : ℝ) ≤ Real.sqrt 2 := by
  nlinarith [sqrt_two_mul_self, Real.sqrt_nonneg (2 : ℝ)]

lemma inv_sqrt_two_pos : (0 : ℝ) < (Real.sqrt 2)⁻¹ := by positivity

lemma bell_amp_0 : run [Gate.h 0, Gate.cx 0 1] 0 = (Real.sqrt 2)⁻¹ := by
  simp +decide [run, applyGate, applyCtrl, apply1, hMat, xMat, e0]

lemma bell_amp_1 : run [Gate.h 0, Gate.cx 0 1] 1 = 0 := by
  simp +decide [run, applyGate, applyCtrl, apply1, hMat, xMat, e0]

lemma bell_amp_2 : run [Gate.h 0, Gate.cx 0 1] 2 = 0 := by
  simp +decide [run, applyGate, applyCtrl, apply1, hMat, xMat, e0]

lemma bell_amp_3 : run [Gate.h 0, Gate.cx 0 1] 3 = (Real.sqrt 2)⁻¹ := by
  simp +decide [run, applyGate, applyCtrl, apply1, hMat, xMat, e0]

lemma ghz_amp_0 : run ghzGates 0 = (Real.sqrt 2)⁻¹ := by
  simp +decide [run, ghzGates, applyGate, applyCtrl, apply1, hMat, xMat, e0]

lemma ghz_amp_7 : run ghzGates 7 = (Real.sqrt 2)⁻¹ := by
  simp +decide [run, ghzGates, applyGate, applyCtrl, apply1, hMat, xMat, e0]

lemma ghz_amp_mid (i : ℕ) (h1 : 0 < i) (h2 : i < 7) : run ghzGates i = 0 := by
  interval_cases i <;>
    simp +decide [run, ghzGates, applyGate, applyCtrl, apply1, hMat, xMat, e0]

lemma hh_amp_0 : run [Gate.h 0, Gate.h 0] 0 = 1 := by
  simp +decide [run, applyGate, apply1, hMat, e0]
  rw [← mul_inv, sqrt_two_mul_self]
  norm_num

lemma hh_amp_1 : run [Gate.h 0, Gate.h 0] 1 = 0 := by
  simp +decide [run, applyGate, apply1, hMat, e0]

lemma w3_amp_1 : run w3Gates 1 = 1 / 2 := by
  simp +decide [run, w3Gates, applyGate, applyCtrl, apply1, hMat, xMat, e0]
  rw [← mul_inv, sqrt_two_mul_self]

lemma w3_amp_2 : run w3Gates 2 = 1 / 2 := by
  simp +decide [run, w3Gates, applyGate, applyCtrl, apply1, hMat, xMat, e0]
  rw [← mul_inv, sqrt_two_mul_self]

lemma w3_amp_4 : run w3Gates 4 = 1 / 2 := by
  simp +decide [run, w3Gates, applyGate, applyCtrl, apply1, hMat, xMat, e0]
  rw [← mul_inv, sqrt_two_mul_self]

lemma w3_amp_7 : run w3Gates 7 = 1 / 2 := by
  simp +decide [run, w3Gates, applyGate, applyCtrl, apply1, hMat, xMat, e0]
  rw [← mul_inv, sqrt_two_mul_self]

lemma w3_amp_other (i : ℕ) (h : i = 0 ∨ i = 3 ∨ i = 5 ∨ i = 6) :
    run w3Gates i = 0 := by
  obtain h | h | h | h := h <;> subst h <;>
    simp +decide [run, w3Gates, applyGate, applyCtrl, apply1, hMat, xMat, e0]

lemma list_range_one : List.range 1 = [0] := rfl

lemma lcg_lt (s : ℕ) : lcg s < 2147483648 := Nat.mod_lt _ (by norm_num)

lemma unif_nonneg (s : ℕ) : 0 ≤ unif s :=
  div_nonneg (Nat.cast_nonneg s) (by norm_num)

lemma unif_lt_one {s : ℕ} (h : s < 2147483648) : unif s < 1 := by
  unfold unif
  rw [div_lt_one (by norm_num)]
  exact_mod_cast h

lemma list_sum_range (n : ℕ) (f : ℕ → ℝ) :
    ((List.range n).map f).sum = ∑ i in Finset.range n, f i := by
  induction n with
  | zero => simp
  | succ k ih =>
      rw [List.range_succ, List.map_append, List.sum_append,
        Finset.sum_range_succ, ih]
      simp

lemma probabilities_sum (n : ℕ) (v : ℕ → ℝ) :
    (probabilities n v).sum = normSq n v :=
  list_sum_range _ _

lemma probabilities_length (n : ℕ) (v : ℕ → ℝ) :
    (probabilities n v).length = 2 ^ n := by
  simp [probabilities]

lemma probabilities_getD {n : ℕ} (v : ℕ → ℝ) {i : ℕ} (hi : i < 2 ^ n) :
    (probabilities n v).getD i 0 = v i ^ 2 := by
  unfold probabilities
  have hlen : i < ((List.range (2 ^ n)).map (fun i => v i ^ 2)).length := by
    simp [hi]
  rw [List.getD_eq_getElem _ _ hlen, List.getElem_map, List.getElem_range]

lemma drawIndex_support : ∀ (p : List ℝ) (u : ℝ), 0 ≤ u → u < p.sum →
    drawIndex p u < p.length ∧ 0 < p.getD (drawIndex p u) 0
  | [], u, hu, hlt => by simp at hlt; linarith
  | a :: ps, u, hu, hlt => by
      by_cases h : u < a
      · refine ⟨by simp [drawIndex, h], ?_⟩
        simp only [drawIndex, if_pos h, List.getD_cons_zero]
        linarith
      · push_neg at h
        have h2 : u - a < ps.sum := by
          simp only [List.sum_cons] at hlt
          linarith
        obtain ⟨hlen, hpos⟩ := drawIndex_support ps (u - a) (by linarith) h2
        refine ⟨?_, ?_⟩
        · simpa [drawIndex, if_neg (not_lt.mpr h)] using Nat.succ_lt_succ hlen
        · simpa [drawIndex, if_neg (not_lt.mpr h), List.getD_cons_succ] using hpos

lemma draws_mem (p : List ℝ) (hsum : p.sum = 1) (seed k : ℕ) :
    ∀ i ∈ draws p seed k, i < p.length ∧ 0 < p.getD i 0 := by
  induction k generalizing seed with
  | zero => simp [draws]
  | succ k ih =>
      intro i hi
      simp only [draws, List.mem_cons] at hi
      obtain h | h := hi
      · subst h
        apply drawIndex_support p _ (unif_nonneg _)
        rw [hsum]
        exact unif_lt_one (lcg_lt seed)
      · exact ih (lcg seed) i h

lemma draws_length (p : List ℝ) (seed k : ℕ) : (draws p seed k).length = k := by
  induction k generalizing seed with
  | zero => rfl
  | succ k ih => simp [draws, ih]

lemma toBitstring_length (n i : ℕ) : (toBitstring n i).length = n := by
  simp [toBitstring, String.length]

lemma toBitstring_getD {n i k : ℕ} (hk : k < n) :
    (toBitstring n i).data.getD (n - 1 - k) 'x' =
      (if Nat.testBit i k then '1' else '0') := by
  unfold toBitstring
  have h1 : n - 1 - k <
      (((List.range n).reverse.map
        (fun b => if Nat.testBit i b then '1' else '0')).length) := by
    simp
    omega
  rw [List.getD_eq_getElem _ _ h1, List.getElem_map, List.getElem_reverse,
    List.getElem_range]
  have h2 : (List.range n).length - 1 - (n - 1 - k) = k := by
    simp
    omega
  rw [h2]

lemma toBitstring_inj {n i j : ℕ} (hi : i < 2 ^ n) (hj : j < 2 ^ n)
    (h : toBitstring n i = toBitstring n j) : i = j := by
  apply Nat.eq_of_testBit_eq
  intro k
  by_cases hk : k < n
  · have hchar := congrArg (fun s => s.data.getD (n - 1 - k) 'x') h
    simp only [toBitstring_getD hk] at hchar
    by_cases hbi : Nat.testBit i k <;> by_cases hbj : Nat.testBit j k <;>
      simp [hbi, hbj] at hchar ⊢
  · have hn : 2 ^ n ≤ 2 ^ k := Nat.pow_le_pow_right (by norm_num) (le_of_not_lt hk)
    rw [Nat.testBit_lt_two_pow (lt_of_lt_of_le hi hn),
      Nat.testBit_lt_two_pow (lt_of_lt_of_le hj hn)]

lemma wGen2_amp_0 : run (wGeneralGates 2) 0 = (Real.sqrt 2)⁻¹ := by
  simp +decide [run, wGeneralGates, applyGate, applyCtrl, apply1, ryMat, e0,
    list_range_one]
  exact Real.cos_arccos (le_trans (by norm_num : (-1:ℝ) ≤ 0) (by positivity))
    (inv_le_one_of_one_le₀ one_le_sqrt_two)

lemma sample_ok_elim {m : ℕ} {p : List ℝ} {shots : ℤ} {seed : ℕ}
    {c : String → ℕ} (hc : sample m p shots seed = Except.ok c) :
    c = countsOf m (draws p seed shots.toNat) := by
  unfold sample at hc
  by_cases h : shots ≤ 0
  · rw [if_pos h] at hc
    exact absurd hc (by simp)
  · rw [if_neg h] at hc
    injection hc with h2
    exact h2.symm

lemma countsOf_support {m : ℕ} {idxs : List ℕ} {s : String}
    (h : countsOf m idxs s ≠ 0) : ∃ i ∈ idxs, s = toBitstring m i := by
  unfold countsOf at h
  have hmem := List.count_pos_iff.mp (Nat.pos_of_ne_zero h)
  obtain ⟨i, hi, hs⟩ := List.mem_map.mp hmem
  exact ⟨i, hi, hs.symm⟩

lemma sample_run_support {n : ℕ} {gs : List Gate} (hv : ∀ g ∈ gs, valid n g)
    {shots : ℤ} {seed : ℕ} {c : String → ℕ}
    (hc : sample n (probabilities n (run gs)) shots seed = Except.ok c)
    {s : String} (hs : c s ≠ 0) :
    ∃ i, i < 2 ^ n ∧ run gs i ≠ 0 ∧ s = toBitstring n i := by
  rw [sample_ok_elim hc] at hs
  obtain ⟨i, hi, hsi⟩ := countsOf_support hs
  have hsum : (probabilities n (run gs)).sum = 1 := by
    rw [probabilities_sum, normSq_run gs hv]
  obtain ⟨hlen, hpos⟩ := draws_mem _ hsum seed _ i hi
  rw [probabilities_length] at hlen
  rw [probabilities_getD _ hlen] at hpos
  refine ⟨i, hlen, ?_, hsi⟩
  intro h0
  rw [h0] at hpos
  simp at hpos

/-- C4: for every circuit composed of the supported gate kinds (H, X, Z, CX,
CZ, CH, RY, CRY) with valid qubit indices, the statevector simulated from the
all-zero initial state has Σ|amplitude_i|² = 1 — exactly, hence within the
1e-9 tolerance — and this holds after every individual gate application (for
every prefix of the circuit), not only at the end. -/
theorem norm_one_after_every_gate (n : ℕ) (gs pre suf : List Gate)
    (hsplit : gs = pre ++ suf) (hv : ∀ g ∈ gs, valid n g) :
    normSq n (run pre) = 1 ∧ |normSq n (run pre) - 1| ≤ 1e-9 := by
  subst hsplit
  have h := normSq_run pre (fun g hg => hv g (List.mem_append_left _ hg))
  refine ⟨h, ?_⟩
  rw [h]
  norm_num

/-- Witness for C4 at the Bell circuit, after its first gate. -/
theorem norm_one_after_every_gate_witness :
    normSq 2 (run [Gate.h 0]) = 1 ∧ |normSq 2 (run [Gate.h 0]) - 1| ≤ 1e-9 :=
  norm_one_after_every_gate 2 [Gate.h 0, Gate.cx 0 1] [Gate.h 0] [Gate.cx 0 1]
    rfl (by decide)

/-- C5: sampling is deterministic given a fixed seed — two calls to `sample`
with identical distribution, shot count and seed return identical Counts. -/
theorem sample_deterministic (m : ℕ) (p : List ℝ) (shots : ℤ) (seed : ℕ)
    (c1 c2 : String → ℕ) (h1 : sample m p shots seed = Except.ok c1)
    (h2 : sample m p shots seed = Except.ok c2) : ∀ s, c1 s = c2 s := by
  rw [h1] at h2
  injection h2 with h
  intro s
  rw [h]

/-- Witness for C5 at `p = [1]`, `shots = 500`, `seed = 42`. -/
theorem sample_deterministic_witness :
    countsOf 1 (draws [1] 42 500) "0" = countsOf 1 (draws [1] 42 500) "0" := by
  have h : sample 1 [1] 500 42 = Except.ok (countsOf 1 (draws [1] 42 500)) := by
    simp [sample]
  exact sample_deterministic 1 [1] 500 42 _ _ h h "0"

/-- C6 counterexample: `run_and_print` with `shots = 0` silently skips
sampling and returns normally — it does not raise `InvalidParameterError`
(this path is exercised deliberately by `ghz_experiments`, which calls
`run_and_print(qc_ghz_sv, shots=0, show_statevector=True)`). -/
theorem run_and_print_zero_shots_skips :
    run_and_print 1 [1] 0 0 = Except.ok none := by
  simp [run_and_print]

/-- C6 amended: the sampling operation itself (`sample`, backing
`run_circuit_sampler`) raises `InvalidParameterError` for every shot count
≤ 0, while the helper `run_and_print` guards sampling behind `if shots > 0`
and silently skips it otherwise. -/
theorem sample_nonpositive_shots_error (m : ℕ) (p : List ℝ) (shots : ℤ)
    (seed : ℕ) (h : shots ≤ 0) :
    sample m p shots seed = Except.error QError.invalidParameter ∧
    run_and_print m p shots seed = Except.ok none := by
  constructor
  · simp [sample, h]
  · simp [run_and_print, not_lt.mpr h]

/-- Witness for C6 (amended) at `shots = 0`. -/
theorem sample_nonpositive_shots_error_witness :
    sample 1 [1] 0 7 = Except.error QError.invalidParameter ∧
    run_and_print 1 [1] 0 7 = Except.ok none :=
  sample_nonpositive_shots_error 1 [1] 0 7 (by norm_num)

/-- C7: a Bell variant outside the four known names and a W-state request
with n < 2 both raise `InvalidParameterError`; no circuit is returned. -/
theorem invalid_factory_inputs (variant : String) (n : ℕ)
    (hv : variant ∉ ["phi_plus", "phi_minus", "psi_plus", "psi_minus"])
    (hn : n < 2) :
    create_bell_state variant = Except.error QError.invalidParameter ∧
    create_w_state n = Except.error QError.invalidParameter := by
  constructor
  · simp only [List.mem_cons, List.not_mem_nil, or_false, not_or] at hv
    obtain ⟨h1, h2, h3, h4⟩ := hv
    simp [create_bell_state, h1, h2, h3, h4]
  · simp [create_w_state, hn]

/-- Witness for C7 at variant `"unknown"` and `n = 1`. -/
theorem invalid_factory_inputs_witness :
    create_bell_state "unknown" = Except.error QError.invalidParameter ∧
    create_w_state 1 = Except.error QError.invalidParameter :=
  invalid_factory_inputs "unknown" 1 (by decide) (by norm_num)

/-- C10: `compare_circuits` returns True exactly when the fidelity
`|⟨ψ1|ψ2⟩|` of the two simulated statevectors is `np.isclose` to 1; in
particular any two circuits whose states agree up to a global phase (±1 for
real amplitudes) compare as equivalent, regardless of their gate lists. -/
theorem compare_circuits_spec (qc1 qc2 : Circuit)
    (h1 : ∀ g ∈ qc1.gates, valid qc1.num_qubits g) :
    (compare_circuits qc1 qc2 ↔
      np_isclose (fidelity qc1.num_qubits (run qc1.gates) (run qc2.gates)) 1) ∧
    (∀ s : ℝ, s = 1 ∨ s = -1 →
      (∀ i < 2 ^ qc1.num_qubits, run qc2.gates i = s * run qc1.gates i) →
      compare_circuits qc1 qc2) := by
  refine ⟨Iff.rfl, ?_⟩
  intro s hs hsv
  unfold compare_circuits np_isclose fidelity
  have hinner : inner_prod qc1.num_qubits (run qc1.gates) (run qc2.gates) =
      s * normSq qc1.num_qubits (run qc1.gates) := by
    unfold inner_prod normSq
    rw [Finset.mul_sum]
    refine Finset.sum_congr rfl ?_
    intro i hi
    rw [hsv i (Finset.mem_range.mp hi)]
    ring
  rw [hinner, normSq_run _ h1]
  obtain rfl | rfl := hs <;> norm_num

/-- Witness for C10: the Bell circuit compared against itself. -/
theorem compare_circuits_spec_witness :
    (compare_circuits ⟨2, 2, [Gate.h 0, Gate.cx 0 1]⟩
        ⟨2, 2, [Gate.h 0, Gate.cx 0 1]⟩ ↔
      np_isclose (fidelity 2 (run [Gate.h 0, Gate.cx 0 1])
        (run [Gate.h 0, Gate.cx 0 1])) 1) ∧
    (∀ s : ℝ, s = 1 ∨ s = -1 →
      (∀ i < 2 ^ 2, run [Gate.h 0, Gate.cx 0 1] i =
        s * run [Gate.h 0, Gate.cx 0 1] i) →
      compare_circuits ⟨2, 2, [Gate.h 0, Gate.cx 0 1]⟩
        ⟨2, 2, [Gate.h 0, Gate.cx 0 1]⟩) :=
  compare_circuits_spec ⟨2, 2, [Gate.h 0, Gate.cx 0 1]⟩
    ⟨2, 2, [Gate.h 0, Gate.cx 0 1]⟩ (by decide)

/-- C2: `create_bell_state("phi_plus")` is exactly H(0), CX(0,1); its
statevector has magnitude 1/√2 at indices 0 and 3 and 0 at indices 1 and 2;
and sampling it (any positive shot count, any seed) yields only the outcomes
"00" and "11", never "01" or "10". -/
theorem bell_phi_plus_spec (shots : ℤ) (seed : ℕ) (c : String → ℕ)
    (hc : sample 2 (probabilities 2 (run [Gate.h 0, Gate.cx 0 1])) shots seed =
      Except.ok c) :
    create_bell_state "phi_plus" = Except.ok ⟨2, 2, [Gate.h 0, Gate.cx 0 1]⟩ ∧
    |run [Gate.h 0, Gate.cx 0 1] 0| = (Real.sqrt 2)⁻¹ ∧
    |run [Gate.h 0, Gate.cx 0 1] 3| = (Real.sqrt 2)⁻¹ ∧
    run [Gate.h 0, Gate.cx 0 1] 1 = 0 ∧
    run [Gate.h 0, Gate.cx 0 1] 2 = 0 ∧
    (∀ s, c s ≠ 0 → s = "00" ∨ s = "11") ∧ c "01" = 0 ∧ c "10" = 0 := by
  have hv : ∀ g ∈ [Gate.h 0, Gate.cx 0 1], valid 2 g := by decide
  have hsupport : ∀ s, c s ≠ 0 → s = "00" ∨ s = "11" := by
    intro s hs
    obtain ⟨i, hi, hne, rfl⟩ := sample_run_support hv hc hs
    norm_num at hi
    interval_cases i
    · left
      rfl
    · exact absurd bell_amp_1 hne
    · exact absurd bell_amp_2 hne
    · right
      rfl
  refine ⟨?_, ?_, ?_, bell_amp_1, bell_amp_2, hsupport, ?_, ?_⟩
  · unfold create_bell_state
    rw [if_pos rfl]
  · rw [bell_amp_0]
    exact abs_of_pos inv_sqrt_two_pos
  · rw [bell_amp_3]
    exact abs_of_pos inv_sqrt_two_pos
  · by_contra h
    rcases hsupport _ h with h2 | h2 <;> exact absurd h2 (by decide)
  · by_contra h
    rcases hsupport _ h with h2 | h2 <;> exact absurd h2 (by decide)

/-- Witness for C2 at `shots = 1000`, `seed = 0`. -/
theorem bell_phi_plus_spec_witness :
    create_bell_state "phi_plus" = Except.ok ⟨2, 2, [Gate.h 0, Gate.cx 0 1]⟩ ∧
    |run [Gate.h 0, Gate.cx 0 1] 0| = (Real.sqrt 2)⁻¹ ∧
    |run [Gate.h 0, Gate.cx 0 1] 3| = (Real.sqrt 2)⁻¹ ∧
    run [Gate.h 0, Gate.cx 0 1] 1 = 0 ∧
    run [Gate.h 0, Gate.cx 0 1] 2 = 0 ∧
    (∀ s, countsOf 2
        (draws (probabilities 2 (run [Gate.h 0, Gate.cx 0 1])) 0 1000) s ≠ 0 →
      s = "00" ∨ s = "11") ∧
    countsOf 2 (draws (probabilities 2 (run [Gate.h 0, Gate.cx 0 1])) 0 1000)
      "01" = 0 ∧
    countsOf 2 (draws (probabilities 2 (run [Gate.h 0, Gate.cx 0 1])) 0 1000)
      "10" = 0 :=
  bell_phi_plus_spec 1000 0
    (countsOf 2 (draws (probabilities 2 (run [Gate.h 0, Gate.cx 0 1])) 0 1000))
    (by simp [sample])

/-- C3: the GHZ(3) circuit H(0), CX(0,1), CX(0,2) has magnitude 1/√2 at
indices 0 and 7 and 0 at the six other indices, and computational-basis
measurement yields only the bitstrings "000" and "111" for every shot. -/
theorem ghz_spec (shots : ℤ) (seed : ℕ) (c : String → ℕ)
    (hc : sample 3 (probabilities 3 (run ghzGates)) shots seed =
      Except.ok c) :
    |run ghzGates 0| = (Real.sqrt 2)⁻¹ ∧
    |run ghzGates 7| = (Real.sqrt 2)⁻¹ ∧
    (∀ i, 0 < i → i < 7 → run ghzGates i = 0) ∧
    (∀ s, c s ≠ 0 → s = "000" ∨ s = "111") := by
  have hv : ∀ g ∈ ghzGates, valid 3 g := by decide
  refine ⟨?_, ?_, ghz_amp_mid, ?_⟩
  · rw [ghz_amp_0]
    exact abs_of_pos inv_sqrt_two_pos
  · rw [ghz_amp_7]
    exact abs_of_pos inv_sqrt_two_pos
  · intro s hs
    obtain ⟨i, hi, hne, rfl⟩ := sample_run_support hv hc hs
    norm_num at hi
    interval_cases i
    · left
      rfl
    · exact absurd (ghz_amp_mid 1 (by norm_num) (by norm_num)) hne
    · exact absurd (ghz_amp_mid 2 (by norm_num) (by norm_num)) hne
    · exact absurd (ghz_amp_mid 3 (by norm_num) (by norm_num)) hne
    · exact absurd (ghz_amp_mid 4 (by norm_num) (by norm_num)) hne
    · exact absurd (ghz_amp_mid 5 (by norm_num) (by norm_num)) hne
    · exact absurd (ghz_amp_mid 6 (by norm_num) (by norm_num)) hne
    · right
      rfl

/-- Witness for C3 at `shots = 2048`, `seed = 0`. -/
theorem ghz_spec_witness :
    |run ghzGates 0| = (Real.sqrt 2)⁻¹ ∧
    |run ghzGates 7| = (Real.sqrt 2)⁻¹ ∧
    (∀ i, 0 < i → i < 7 → run ghzGates i = 0) ∧
    (∀ s, countsOf 3 (draws (probabilities 3 (run ghzGates)) 0 2048) s ≠ 0 →
      s = "000" ∨ s = "111") :=
  ghz_spec 2048 0
    (countsOf 3 (draws (probabilities 3 (run ghzGates)) 0 2048))
    (by simp [sample])

/-- C8: H then H on one qubit yields the statevector [1, 0] exactly, and
sampling 1000 shots from it with any seed yields exactly the counts
`{"0": 1000}`. -/
theorem hh_identity_spec (seed : ℕ) (c : String → ℕ)
    (hc : sample 1 (probabilities 1 (run [Gate.h 0, Gate.h 0])) 1000 seed =
      Except.ok c) :
    run [Gate.h 0, Gate.h 0] 0 = 1 ∧ run [Gate.h 0, Gate.h 0] 1 = 0 ∧
    c "0" = 1000 ∧ (∀ s, s ≠ "0" → c s = 0) := by
  have hv : ∀ g ∈ [Gate.h 0, Gate.h 0], valid 1 g := by decide
  have hsum : (probabilities 1 (run [Gate.h 0, Gate.h 0])).sum = 1 := by
    rw [probabilities_sum, normSq_run _ hv]
  have hall : ∀ i ∈ draws (probabilities 1 (run [Gate.h 0, Gate.h 0]))
      seed 1000, i = 0 := by
    intro i hi
    obtain ⟨hlen, hpos⟩ := draws_mem _ hsum seed 1000 i hi
    rw [probabilities_length] at hlen
    rw [probabilities_getD _ hlen] at hpos
    norm_num at hlen
    interval_cases i
    · rfl
    · rw [hh_amp_1] at hpos
      norm_num at hpos
  have hcv := sample_ok_elim hc
  rw [show ((1000 : ℤ)).toNat = 1000 from rfl] at hcv
  subst hcv
  have hmap : ∀ b ∈ (draws (probabilities 1 (run [Gate.h 0, Gate.h 0]))
      seed 1000).map (toBitstring 1), "0" = b := by
    intro b hb
    obtain ⟨i, hi, rfl⟩ := List.mem_map.mp hb
    rw [hall i hi]
    decide
  refine ⟨hh_amp_0, hh_amp_1, ?_, ?_⟩
  · unfold countsOf
    rw [List.count_eq_length.mpr hmap, List.length_map, draws_length]
  · intro s hs
    unfold countsOf
    refine List.count_eq_zero.mpr ?_
    intro hmem
    obtain ⟨i, hi, hsi⟩ := List.mem_map.mp hmem
    rw [hall i hi] at hsi
    apply hs
    rw [← hsi]
    decide

/-- Witness for C8 at `seed = 0`. -/
theorem hh_identity_spec_witness :
    run [Gate.h 0, Gate.h 0] 0 = 1 ∧ run [Gate.h 0, Gate.h 0] 1 = 0 ∧
    countsOf 1 (draws (probabilities 1 (run [Gate.h 0, Gate.h 0])) 0 1000)
      "0" = 1000 ∧
    (∀ s, s ≠ "0" →
      countsOf 1 (draws (probabilities 1 (run [Gate.h 0, Gate.h 0])) 0 1000)
        s = 0) :=
  hh_identity_spec 0
    (countsOf 1 (draws (probabilities 1 (run [Gate.h 0, Gate.h 0])) 0 1000))
    (by simp [sample])

/-- C1: evaluation of `create_w_state` at the failing inputs. The explicit
n = 3 sequence X(0), CH(0,1), CH(0,2), CX(1,0), CX(2,0) puts magnitude 1/2 —
not 1/√3 — on each Hamming-weight-1 basis state (indices 1, 2, 4) and
magnitude 1/2 — not 0 — on |111⟩ (index 7); the general RY/CRY branch at
n = 2 leaves magnitude 1/√2 — not 0 — on the all-zero basis state (index 0).
The produced states are not W states, contradicting the spec invariant and
the docstring of `create_w_state` itself. -/
theorem w_state_code_bug :
    create_w_state 3 = Except.ok ⟨3, 0, w3Gates⟩ ∧
    run w3Gates 1 = 1 / 2 ∧ run w3Gates 2 = 1 / 2 ∧ run w3Gates 4 = 1 / 2 ∧
    run w3Gates 7 = 1 / 2 ∧
    ((1 : ℝ) / 2 ≠ 0) ∧ ((1 : ℝ) / 2 ≠ (Real.sqrt 3)⁻¹) ∧
    create_w_state 2 = Except.ok ⟨2, 0, wGeneralGates 2⟩ ∧
    run (wGeneralGates 2) 0 = (Real.sqrt 2)⁻¹ ∧
    (Real.sqrt 2)⁻¹ ≠ (0 : ℝ) := by
  refine ⟨?_, w3_amp_1, w3_amp_2, w3_amp_4, w3_amp_7, by norm_num, ?_, ?_,
    wGen2_amp_0, ne_of_gt inv_sqrt_two_pos⟩
  · unfold create_w_state
    rw [if_neg (by norm_num), if_pos rfl]
  · have h3 := Real.mul_self_sqrt (show (0:ℝ) ≤ 3 by norm_num)
    have hpos : 0 < Real.sqrt 3 := Real.sqrt_pos.mpr (by norm_num)
    intro h
    have h2 : Real.sqrt 3 = 2 := by
      field_simp at h
      linarith
    rw [h2] at h3
    norm_num at h3
  · unfold create_w_state
    rw [if_neg (by norm_num), if_neg (by norm_num)]

/-- C9: `print_statevector` lists exactly the indices whose amplitude
magnitude strictly exceeds the caller-supplied threshold (default `1e-10`),
reporting magnitude and phase for each, and every listed index is rendered
as an n-bit bitstring in which qubit 0 occupies the least-significant
(rightmost) position. -/
theorem print_statevector_spec (sv : List ℝ) (m : ℕ) (threshold : ℝ)
    (hlen : sv.length = 2 ^ m) (i : ℕ) (hi : i < sv.length) :
    ((∃ e ∈ print_statevector sv threshold, e.1 = toBitstring m i) ↔
      threshold < |sv.getD i 0|) ∧
    (∀ e ∈ print_statevector sv threshold, e.1 = toBitstring m i →
      e.2.1 = |sv.getD i 0| ∧ e.2.2 = np_angle (sv.getD i 0)) ∧
    print_statevector sv = print_statevector sv 1e-10 ∧
    (toBitstring m i).length = m ∧
    (∀ k, k < m → (toBitstring m i).data.getD (m - 1 - k) 'x' =
      (if Nat.testBit i k then '1' else '0')) := by
  have hlog : sv.length.log2 = m := by
    rw [hlen]
    exact Nat.log2_two_pow
  have hi2 : i < 2 ^ m := hlen ▸ hi
  have hfwd : ∀ e ∈ print_statevector sv threshold, e.1 = toBitstring m i →
      threshold < |sv.getD i 0| ∧
      e = (toBitstring sv.length.log2 i, |sv.getD i 0|,
        np_angle (sv.getD i 0)) := by
    intro e he h1
    obtain ⟨j, hj, hsome⟩ := List.mem_filterMap.mp he
    rw [List.mem_range] at hj
    by_cases hth : threshold < |sv.getD j 0|
    · rw [if_pos hth] at hsome
      have he2 := (Option.some.inj hsome).symm
      subst he2
      simp only at h1
      rw [hlog] at h1
      have hj2 : j < 2 ^ m := hlen ▸ hj
      obtain rfl := toBitstring_inj hj2 hi2 h1
      exact ⟨hth, rfl⟩
    · rw [if_neg hth] at hsome
      exact absurd hsome (by simp)
  refine ⟨⟨?_, ?_⟩, ?_, rfl, toBitstring_length m i,
    fun k hk => toBitstring_getD hk⟩
  · rintro ⟨e, he, h1⟩
    exact (hfwd e he h1).1
  · intro hth
    refine ⟨(toBitstring sv.length.log2 i, |sv.getD i 0|,
      np_angle (sv.getD i 0)), ?_, by rw [hlog]⟩
    apply List.mem_filterMap.mpr
    exact ⟨i, List.mem_range.mpr hi, by rw [if_pos hth]⟩
  · intro e he h1
    obtain ⟨_, rfl⟩ := hfwd e he h1
    exact ⟨rfl, rfl⟩

/-- Witness for C9 at `sv = [1, 0]`, one qubit, index 0, default threshold. -/
theorem print_statevector_spec_witness :
    ((∃ e ∈ print_statevector [(1:ℝ), 0] 1e-10, e.1 = toBitstring 1 0) ↔
      (1e-10 : ℝ) < |List.getD [(1:ℝ), 0] 0 0|) ∧
    (∀ e ∈ print_statevector [(1:ℝ), 0] 1e-10, e.1 = toBitstring 1 0 →
      e.2.1 = |List.getD [(1:ℝ), 0] 0 0| ∧
      e.2.2 = np_angle (List.getD [(1:ℝ), 0] 0 0)) ∧
    print_statevector [(1:ℝ), 0] = print_statevector [(1:ℝ), 0] 1e-10 ∧
    (toBitstring 1 0).length = 1 ∧
    (∀ k, k < 1 → (toBitstring 1 0).data.getD (1 - 1 - k) 'x' =
      (if Nat.testBit 0 k then '1' else '0')) :=
  print_statevector_spec [(1:ℝ), 0] 1 1e-10 rfl 0 (by norm_num)

end QC
